import Mathlib

/-!
Verification of the portfolio ledger, rebalancing and risk-enforcement core
of the lazyAItrading repository.  The Python code is shallowly embedded:
floats become exact rationals, the insertion-ordered Python dict becomes an
association list with in-place update, and the driver loops become folds.
The main embedded pieces are the Python class named `Portfolio` (here called
`Ledger`, the term the design document uses for it), the risk profiles, the
rebalance pass of `rebalance_to_picks` ( runner_daily.py), the decision
conversion of `apply_decisions` ( runner_gemini.py), and the per-bar loop of
the backtest driver (engine.py).
-/

/-- One long holding: embeds `class Position` (qty, avg_price) from the
Python ledger module. -/
structure Position where
  qty : ℚ
  avg_price : ℚ
deriving DecidableEq, Repr

/-- Lookup in an insertion-ordered association list; embeds Python
`dict.get(key)` returning the first (hence unique) binding. -/
def lookupA {β : Type} : List (String × β) → String → Option β
  | [], _ => none
  | kv :: t, s => if kv.1 = s then some kv.2 else lookupA t s

/-- Update-or-append on an association list; embeds Python `dict[key] = v`,
which overwrites an existing binding in place and otherwise appends at the
end (insertion order preserved). -/
def setA {β : Type} : List (String × β) → String → β → List (String × β)
  | [], s, v => [(s, v)]
  | kv :: t, s, v => if kv.1 = s then (s, v) :: t else kv :: setA t s v

/-- Embeds `self.positions.get(symbol, Position())`. -/
def posGetD (l : List (String × Position)) (s : String) : Position :=
  (lookupA l s).getD ⟨0, 0⟩

/-- Embeds `prices.get(sym, default)`. -/
def priceGetD (prices : List (String × ℚ)) (s : String) (d : ℚ) : ℚ :=
  (lookupA prices s).getD d

/-- The cash-and-positions ledger: embeds the Python class `Portfolio`
(fields cash, positions, fee_rate, fee_fixed, slippage_bps).  The optional
trade-log path is pure I/O with no effect on cash or positions and is not
modelled. -/
structure Ledger where
  cash : ℚ
  positions : List (String × Position)
  fee_rate : ℚ
  fee_fixed : ℚ
  slippage_bps : ℚ
deriving DecidableEq, Repr

/-- Embeds the `__init__` of the Python ledger class: the three cost-model
parameters are clamped with `max(0.0, ...)` and positions start empty. -/
def mkLedger (cash fee_rate fee_fixed slippage_bps : ℚ) : Ledger :=
  { cash := cash
    positions := []
    fee_rate := max 0 fee_rate
    fee_fixed := max 0 fee_fixed
    slippage_bps := max 0 slippage_bps }

/-- Embeds `Portfolio.value`: cash plus mark-to-market of every position,
falling back to the position's average cost when no quote is known. -/
def Ledger.value (p : Ledger) (prices : List (String × ℚ)) : ℚ :=
  p.positions.foldl (fun acc kv => acc + kv.2.qty * priceGetD prices kv.1 kv.2.avg_price) p.cash

/-- Embeds `Portfolio.buy(symbol, price, amount_cash)` line by line:
degenerate guards, spend capped at available cash, slippage-adjusted
execution price, fee-adjusted denominator, fixed-fee guard, quantity
acquired, cash debit, and the quoted-price average-cost blend. -/
def Ledger.buy (p : Ledger) (symbol : String) (price amount_cash : ℚ) : Ledger :=
  if amount_cash ≤ 0 ∨ price ≤ 0 then p else
  let spend := min p.cash amount_cash
  let exec_px := price * (1 + p.slippage_bps / 10000)
  let denom := exec_px * (1 + p.fee_rate)
  if denom ≤ 0 then p else
  if spend ≤ p.fee_fixed then p else
  let qty := (spend - p.fee_fixed) / denom
  let pos := posGetD p.positions symbol
  let new_qty := pos.qty + qty
  let new_avg := if 0 < new_qty then (pos.avg_price * pos.qty + price * qty) / new_qty else 0
  { p with cash := p.cash - spend
           positions := setA p.positions symbol ⟨new_qty, new_avg⟩ }

/-- Embeds `Portfolio.sell(symbol, price, qty)` line by line: degenerate
guards, missing-or-empty-position guard, sale capped at held quantity,
slippage against the seller, floored net proceeds, and the zeroing of the
average cost exactly when the position empties. -/
def Ledger.sell (p : Ledger) (symbol : String) (price qty : ℚ) : Ledger :=
  if qty ≤ 0 ∨ price ≤ 0 then p else
  match lookupA p.positions symbol with
  | none => p
  | some pos =>
    if pos.qty ≤ 0 then p else
    let sell_qty := min pos.qty qty
    let exec_px := price * (1 - p.slippage_bps / 10000)
    let gross := sell_qty * exec_px
    let proceeds := max 0 (gross * (1 - p.fee_rate) - p.fee_fixed)
    let new_qty := pos.qty - sell_qty
    let new_avg := if new_qty ≤ 0 then 0 else pos.avg_price
    { p with cash := p.cash + proceeds
             positions := setA p.positions symbol ⟨new_qty, new_avg⟩ }

/-- A single ledger call with arbitrary arguments, for reasoning about
arbitrary finite sequences of buy and sell calls. -/
inductive LedgerOp where
  | buy (symbol : String) (price amount_cash : ℚ)
  | sell (symbol : String) (price qty : ℚ)

/-- Run one call against the ledger. -/
def applyOp (p : Ledger) : LedgerOp → Ledger
  | .buy s px amt => p.buy s px amt
  | .sell s px q => p.sell s px q

/-- Run a finite sequence of calls, left to right. -/
def applyOps (ops : List LedgerOp) (p : Ledger) : Ledger :=
  ops.foldl applyOp p

/-- The per-position invariant of the design document: quantities are never
negative (no short selling) and the average cost is zero exactly when the
quantity is zero (and is itself never negative). -/
def posInvariant (p : Ledger) : Prop :=
  ∀ s pos, lookupA p.positions s = some pos →
    0 ≤ pos.qty ∧ (pos.qty = 0 ↔ pos.avg_price = 0) ∧ 0 ≤ pos.avg_price

/-- Embeds `RiskProfile` from the core types module (fields as in the
Python named tuple; the textual fields are kept verbatim). -/
structure RiskProfile where
  name : String
  target_return : String
  max_drawdown : ℚ
  max_position_pct : ℚ
  stop_loss_pct : ℚ
  rebalance : String
deriving DecidableEq, Repr

/-- The conservative profile of `RiskAgent.PROFILES`. -/
def conservative : RiskProfile :=
  ⟨"conservative", "8-12%", 5/100, 2/100, 3/100, "monthly"⟩

/-- The balanced profile of `RiskAgent.PROFILES`. -/
def balanced : RiskProfile :=
  ⟨"balanced", "15-25%", 12/100, 5/100, 7/100, "biweekly"⟩

/-- The aggressive profile of `RiskAgent.PROFILES`. -/
def aggressive : RiskProfile :=
  ⟨"aggressive", "30%+", 20/100, 8/100, 15/100, "daily"⟩

/-- Embeds the `RiskAgent.PROFILES` mapping. -/
def PROFILES : List (String × RiskProfile) :=
  [("conservative", conservative), ("balanced", balanced), ("aggressive", aggressive)]

/-- Embeds the interior lookup `RiskAgent.PROFILES.get(profile,
RiskAgent.PROFILES["balanced"])` used by the live runners: unknown names
silently fall back to the balanced profile. -/
def profilesGetD (s : String) : RiskProfile :=
  (lookupA PROFILES s).getD balanced

/-- One `(symbol, score, weight)` triple as read from a picks CSV. -/
structure Pick where
  symbol : String
  score : ℚ
  weight : ℚ
deriving DecidableEq, Repr

/-- Sum of the weights of a target mapping (Python `sum(targets.values())`). -/
def sumVals (l : List (String × ℚ)) : ℚ :=
  (l.map (fun kv => kv.2)).sum

/-- Embeds the weight normalization and capping step of
`rebalance_to_picks`: clamp raw weights to non-negative, normalize by their
sum (zero if the sum is non-positive), cap each at `cap`, and if the capped
weights still sum to more than 1 rescale them all by `1 / sum`. -/
def computeTargets (picks : List Pick) (cap : ℚ) : List (String × ℚ) :=
  let total_w := (picks.map (fun p => max 0 p.weight)).sum
  let norm := if 0 < total_w then 1 / total_w else 0
  let targets := picks.foldl (fun ts p =>
    setA ts p.symbol (min (if 0 < norm then max 0 p.weight * norm else 0) cap)) []
  let sum_w := sumVals targets
  if 1 < sum_w then targets.map (fun kv => (kv.1, kv.2 * (1 / sum_w))) else targets

/-- One decision record consumed by the Gemini runner (already
upper-cased, as the Python code normalizes symbol and action on entry). -/
structure Decision where
  symbol : String
  action : String
  target_weight : ℚ
deriving DecidableEq, Repr

/-- Embeds the target computation of `apply_decisions`: keep BUY/HOLD
decisions with a non-empty symbol and positive weight, truncate to
`max_positions`, and normalize by the total weight (1 if the total is
zero).  Note: no per-symbol cap is applied here. -/
def geminiTargets (decisions : List Decision) (max_positions : ℕ) : List (String × ℚ) :=
  let picks := (decisions.filterMap (fun d =>
    if d.symbol ≠ "" ∧ (d.action = "BUY" ∨ d.action = "HOLD") ∧ 0 < d.target_weight
    then some (d.symbol, d.target_weight) else none)).take max_positions
  let total := (picks.map (fun kv => kv.2)).sum
  let totalA := if total = 0 then 1 else total
  picks.foldl (fun ts kv => setA ts kv.1 (kv.2 / totalA)) []

-- Helper lemmas about the values stored in a target mapping.

/-- All values of a target mapping satisfy a predicate. -/
def valuesP (P : ℚ → Prop) (l : List (String × ℚ)) : Prop :=
  ∀ s w, lookupA l s = some w → P w

/-- Which block of the rebalance algorithm issued an order: the stop-loss
sweep, or target-weight driven trading (exits and adjustments). -/
inductive Phase where
  | sweep
  | target
deriving DecidableEq, Repr

/-- Order direction. -/
inductive Side where
  | buyOrder
  | sellOrder
deriving DecidableEq, Repr

/-- One buy/sell invocation issued against the ledger by a driver, tagged
with the block that issued it (the ledger itself may still no-op the
order on degenerate arguments). -/
structure TradeEv where
  phase : Phase
  side : Side
  symbol : String
deriving DecidableEq, Repr

/-- Index into a trace with an out-of-range default. -/
def evGetD (tr : List TradeEv) (i : ℕ) : TradeEv :=
  tr.getD i ⟨Phase.target, Side.sellOrder, ""⟩

/-- The ordering property claimed for a rebalance pass: every order issued
by the stop-loss sweep comes strictly before every target-driven order. -/
def sweepPrecedesTargets (tr : List TradeEv) : Prop :=
  ∀ i, i < tr.length → ∀ j, j < tr.length →
    (evGetD tr i).phase = Phase.sweep → (evGetD tr j).phase = Phase.target → i < j

/-- Embeds the stop-loss sweep of `rebalance_to_picks` (the loop commented
"enforce stop-loss before target rebalance"): for each initially held
symbol with positive quantity, positive quote and positive average cost,
liquidate fully when the quote is at or under
`avg_price * (1 - stop_loss_pct)`. -/
def runnerSweep (stop : ℚ) (prices : List (String × ℚ)) (held_syms : List String)
    (port : Ledger) : Ledger × List TradeEv :=
  held_syms.foldl (fun st sym =>
    match lookupA st.1.positions sym with
    | none => st
    | some pos =>
      let px := priceGetD prices sym 0
      if 0 < pos.qty ∧ 0 < px ∧ 0 < pos.avg_price ∧ px ≤ pos.avg_price * (1 - stop) then
        (st.1.sell sym px pos.qty, st.2 ++ [⟨Phase.sweep, Side.sellOrder, sym⟩])
      else st) (port, [])

/-- Embeds the exit loop of `rebalance_to_picks` ("sell names not in picks
to target 0"): fully liquidate held symbols absent from the target set. -/
def runnerExits (targets : List (String × ℚ)) (prices : List (String × ℚ))
    (held_syms : List String) (port : Ledger) : Ledger × List TradeEv :=
  held_syms.foldl (fun st sym =>
    if lookupA targets sym = none then
      let px := priceGetD prices sym 0
      match lookupA st.1.positions sym with
      | none => st
      | some pos =>
        if 0 < pos.qty ∧ 0 < px then
          (st.1.sell sym px pos.qty, st.2 ++ [⟨Phase.target, Side.sellOrder, sym⟩])
        else st
    else st) (port, [])

/-- Embeds the adjustment loop of `rebalance_to_picks` ("adjust picks to
target values"): move each targeted symbol towards `weight * equity`,
skipping quotes that are not positive and deltas below the anti-churn
threshold. -/
def runnerAdjust (prices : List (String × ℚ)) (thresh eq2 : ℚ)
    (targets : List (String × ℚ)) (port : Ledger) : Ledger × List TradeEv :=
  targets.foldl (fun st kv =>
    let px := priceGetD prices kv.1 0
    if px ≤ 0 then st else
    let cur_val := match lookupA st.1.positions kv.1 with
      | some pos => pos.qty * px
      | none => 0
    let delta := kv.2 * eq2 - cur_val
    if abs delta < thresh then st else
    if 0 < delta then
      (st.1.buy kv.1 px delta, st.2 ++ [⟨Phase.target, Side.buyOrder, kv.1⟩])
    else
      let sell_qty := min (match lookupA st.1.positions kv.1 with
        | some pos => pos.qty
        | none => 0) (abs delta / px)
      if 0 < sell_qty then
        (st.1.sell kv.1 px sell_qty, st.2 ++ [⟨Phase.target, Side.sellOrder, kv.1⟩])
      else st) (port, [])

/-- Embeds one full rebalance pass of `rebalance_to_picks` ( runner_daily),
with price fetching and state I/O abstracted into the `prices`, `cash` and
`positions` arguments, and the trace of issued orders made explicit: build
the ledger through the Python constructor, compute capped targets, take the
anti-churn threshold from pre-sweep equity, then run stop-loss sweep, exit
sells, and (with equity re-read after the exits) target adjustments, in
that order. -/
def rebalancePass (picks : List Pick) (cap stop min_trade_cash_pct fr ff sl : ℚ)
    (prices : List (String × ℚ)) (cash : ℚ) (positions : List (String × Position)) :
    Ledger × List TradeEv :=
  let port : Ledger := { mkLedger cash fr ff sl with positions := positions }
  let held_syms := positions.map (fun kv => kv.1)
  let targets := computeTargets picks cap
  let thresh := max (min_trade_cash_pct * port.value prices) 1
  let s1 := runnerSweep stop prices held_syms port
  let s2 := runnerExits targets prices held_syms s1.1
  let s3 := runnerAdjust prices thresh (s2.1.value prices) targets s2.1
  (s3.1, s1.2 ++ s2.2 ++ s3.2)

/-- Embeds the rebalance block of the backtest driver's bar step
(engine.py): using pre-trade equity, size each pick at
`min(equity * max_position_pct, equity / max(1, len(picks)))`, sell held
symbols not in the picks, then top up each pick whose shortfall exceeds the
anti-churn threshold.  The ranked pick list produced by the out-of-scope
scoring module is taken as the `picks` argument. -/
def engineRebalance (cap : ℚ) (picks : List String) (min_trade_cash_pct : ℚ)
    (prices : List (String × ℚ)) (port : Ledger) : Ledger × List TradeEv :=
  let eq := port.value prices
  let per_pos_cash := min (eq * cap) (eq / ((max 1 picks.length : ℕ) : ℚ))
  let s1 := port.positions.foldl (fun st kv =>
    if 0 < kv.2.qty ∧ kv.1 ∉ picks then
      (st.1.sell kv.1 (priceGetD prices kv.1 0) kv.2.qty,
        st.2 ++ [⟨Phase.target, Side.sellOrder, kv.1⟩])
    else st) (port, [])
  picks.foldl (fun st sym =>
    let px := priceGetD prices sym 0
    if px ≤ 0 then st else
    let cur_val := match lookupA st.1.positions sym with
      | some pos => pos.qty * px
      | none => 0
    let delta := max 0 (per_pos_cash - cur_val)
    if max (min_trade_cash_pct * eq) 1 < delta then
      (st.1.buy sym px delta, st.2 ++ [⟨Phase.target, Side.buyOrder, sym⟩])
    else st) s1

/-- Embeds the daily stop-loss block of the backtest driver's bar step
(engine.py, comment "enforce stop-loss daily"): for each held position with
positive quantity it compares the current quote `px` against
`px * (1 - stop_loss_pct)` — a threshold derived from the current price
itself rather than from the position's average cost — and sells only when
`px ≤ px * (1 - stop_loss_pct)`. -/
def engineStopSweep (stop : ℚ) (prices : List (String × ℚ)) (port : Ledger) :
    Ledger × List TradeEv :=
  port.positions.foldl (fun st kv =>
    if 0 < kv.2.qty then
      let px := priceGetD prices kv.1 0
      if px ≤ px * (1 - stop) then
        (st.1.sell kv.1 px kv.2.qty, st.2 ++ [⟨Phase.sweep, Side.sellOrder, kv.1⟩])
      else st
    else st) (port, [])

/-- Embeds one bar of the backtest driver: the rebalance block (on
rebalance bars) runs first, the daily stop-loss block runs after it. -/
def engineBar (cap stop : ℚ) (picks : List String) (min_trade_cash_pct : ℚ)
    (rebalance_bar : Bool) (prices : List (String × ℚ)) (port : Ledger) :
    Ledger × List TradeEv :=
  let s1 := if rebalance_bar then engineRebalance cap picks min_trade_cash_pct prices port
            else (port, [])
  let s2 := engineStopSweep stop prices s1.1
  (s2.1, s1.2 ++ s2.2)

/-- One OHLCV bar; only the close is consumed by the driver's marking loop
(`float(bar.get("close", 0.0))`). -/
structure Bar where
  close : ℚ
deriving DecidableEq, Repr

/-- Python list indexing `l[k]` with negative-index wrap-around: `none`
models the `IndexError` raised when the (adjusted) index is out of range. -/
def pyGet {α : Type} (l : List α) (k : ℤ) : Option α :=
  let i : ℤ := if k < 0 then (l.length : ℤ) + k else k
  if 0 ≤ i then l.get? i.toNat else none

/-- Embeds the per-bar price-marking loop of the backtest driver
(engine.py): for bar `i` of `N`, look up each listed symbol's series
(defaulting to the empty list), index it at `-N + i`, and record the bar's
close; `none` models the `IndexError` escaping the driver. -/
def engineStepPrices (symbols : List String) (m : List (String × List Bar)) (N i : ℕ) :
    Option (List (String × ℚ)) :=
  symbols.foldlM (fun ps sym =>
    match pyGet ((lookupA m sym).getD []) (-(N : ℤ) + i) with
    | none => none
    | some bar => some (setA ps sym bar.close)) []

/-- Embeds the driver's alignment and bar loop as far as price marking is
concerned: series lengths are collected for the listed symbols present in
the map, the bar count `N` is their minimum (with an early empty return
when no listed symbol is present), and the marking loop runs for every bar;
`none` models an `IndexError` raised on some bar. -/
def backtestMarkPrices (symbols : List String) (m : List (String × List Bar)) :
    Option (List (List (String × ℚ))) :=
  let lengths := symbols.filterMap (fun s => (lookupA m s).map List.length)
  match lengths with
  | [] => some []
  | h :: t =>
    let N := t.foldl Nat.min h
    (List.range N).foldlM (fun acc i =>
      (engineStepPrices symbols m N i).map (fun ps => acc ++ [ps])) []

/-- The successfully parsed content of a persisted ledger snapshot: the
optional cash field (Python `data.get("cash", 10_000.0)` defaults a missing
key) and the parsed positions map. -/
structure SnapshotData where
  cash : Option ℚ
  positions : List (String × Position)
deriving DecidableEq, Repr

/-- Embeds `load_state` of runner_daily (and its byte-identical twin in
runner_gemini) with file I/O abstracted: `none` is a missing snapshot file
(the `os.path.exists` guard), `some none` is a file that could not be read
or parsed (the `except` branch around `json.load` and the float
conversions), and `some (some d)` is a successfully parsed snapshot. -/
def loadState (snapshot : Option (Option SnapshotData)) : ℚ × List (String × Position) :=
  match snapshot with
  | none => (10000, [])
  | some none => (10000, [])
  | some (some d) => (d.cash.getD 10000, d.positions)

-- Basic association-list lemmas.

theorem lookupA_setA_self {β : Type} (l : List (String × β)) (s : String) (v : β) :
    lookupA (setA l s v) s = some v := by
  induction l with
  | nil => simp [setA, lookupA]
  | cons kv t ih =>
    by_cases h : kv.1 = s
    · simp [setA, h, lookupA]
    · simp [setA, h, lookupA, ih]

theorem lookupA_setA_ne {β : Type} (l : List (String × β)) (s t : String) (v : β)
    (h : t ≠ s) : lookupA (setA l s v) t = lookupA l t := by
  have h' : ¬ s = t := fun hh => h hh.symm
  induction l with
  | nil => simp [setA, lookupA, h']
  | cons kv tl ih =>
    by_cases hk : kv.1 = s
    · simp [setA, hk, lookupA, h', hk ▸ h']
    · simp [setA, hk, lookupA, ih]

-- Preservation lemmas for the ledger invariants.

theorem Ledger.buy_cash_nonneg (p : Ledger) (s : String) (px amt : ℚ)
    (h : 0 ≤ p.cash) : 0 ≤ (p.buy s px amt).cash := by
  simp only [Ledger.buy]
  split_ifs with h1 h2 h3 h4 <;> try exact h
  all_goals exact sub_nonneg.mpr inf_le_left

theorem Ledger.sell_cash_nonneg (p : Ledger) (s : String) (px q : ℚ)
    (h : 0 ≤ p.cash) : 0 ≤ (p.sell s px q).cash := by
  simp only [Ledger.sell]
  split_ifs with h1
  · exact h
  · cases hl : lookupA p.positions s with
    | none => exact h
    | some pos =>
      dsimp only
      split_ifs with h2 h3 <;> try exact h
      all_goals exact add_nonneg h le_sup_left

theorem applyOp_cash_nonneg (p : Ledger) (op : LedgerOp)
    (h : 0 ≤ p.cash) : 0 ≤ (applyOp p op).cash := by
  cases op with
  | buy s px amt => exact p.buy_cash_nonneg s px amt h
  | sell s px q => exact p.sell_cash_nonneg s px q h

/-- C1: starting from any ledger with non-negative cash, any finite sequence
of buy and sell calls with arbitrary arguments leaves cash non-negative; in
particular cash is non-negative after every intermediate call, since every
prefix of the sequence is itself such a sequence. -/
theorem cash_never_negative (p : Ledger) (h : 0 ≤ p.cash) (ops : List LedgerOp) :
    0 ≤ (applyOps ops p).cash := by
  induction ops generalizing p with
  | nil => exact h
  | cons op t ih => exact ih (applyOp p op) (applyOp_cash_nonneg p op h)

theorem Ledger.buy_posInvariant (p : Ledger) (s : String) (px amt : ℚ)
    (h : posInvariant p) : posInvariant (p.buy s px amt) := by
  intro t pos ht
  simp only [Ledger.buy] at ht
  split_ifs at ht with h1 h2 h3 h4
  · exact h t pos ht
  · exact h t pos ht
  · exact h t pos ht
  · -- executed-buy branch
    push_neg at h1 h2 h3
    have hpx : 0 < px := h1.2
    have hden : 0 < px * (1 + p.slippage_bps / 10000) * (1 + p.fee_rate) := h2
    have hq : 0 < (min p.cash amt - p.fee_fixed) / (px * (1 + p.slippage_bps / 10000) * (1 + p.fee_rate)) :=
      div_pos (by linarith [h3]) hden
    have hq0 : 0 ≤ (posGetD p.positions s).qty ∧ 0 ≤ (posGetD p.positions s).avg_price := by
      cases hl : lookupA p.positions s with
      | none => simp [posGetD, hl]
      | some old =>
        have := h s old hl
        simp only [posGetD, hl, Option.getD_some]
        exact ⟨this.1, this.2.2⟩
    by_cases hts : t = s
    · subst hts
      rw [lookupA_setA_self] at ht
      obtain rfl : pos = _ := (Option.some.inj ht).symm
      have hnq : 0 < (posGetD p.positions t).qty +
          (min p.cash amt - p.fee_fixed) / (px * (1 + p.slippage_bps / 10000) * (1 + p.fee_rate)) :=
        add_pos_of_nonneg_of_pos hq0.1 hq
      have havg : 0 < ((posGetD p.positions t).avg_price * (posGetD p.positions t).qty +
          px * ((min p.cash amt - p.fee_fixed) / (px * (1 + p.slippage_bps / 10000) * (1 + p.fee_rate)))) /
          ((posGetD p.positions t).qty +
            (min p.cash amt - p.fee_fixed) / (px * (1 + p.slippage_bps / 10000) * (1 + p.fee_rate))) :=
        div_pos (add_pos_of_nonneg_of_pos (mul_nonneg hq0.2 hq0.1) (mul_pos hpx hq)) hnq
      exact ⟨le_of_lt hnq, iff_of_false (ne_of_gt hnq) (ne_of_gt havg), le_of_lt havg⟩
    · rw [lookupA_setA_ne _ _ _ _ hts] at ht
      exact h t pos ht
  · -- the quantity-positive test of the average blend cannot fail
    exfalso
    push_neg at h1 h2 h3
    have hq : 0 < (min p.cash amt - p.fee_fixed) / (px * (1 + p.slippage_bps / 10000) * (1 + p.fee_rate)) :=
      div_pos (by linarith [h3]) h2
    have hq0 : 0 ≤ (posGetD p.positions s).qty := by
      cases hl : lookupA p.positions s with
      | none => simp [posGetD, hl]
      | some old =>
        have := h s old hl
        simp only [posGetD, hl, Option.getD_some]
        exact this.1
    exact h4 (add_pos_of_nonneg_of_pos hq0 hq)

theorem Ledger.sell_posInvariant (p : Ledger) (s : String) (px q : ℚ)
    (h : posInvariant p) : posInvariant (p.sell s px q) := by
  intro t pos ht
  simp only [Ledger.sell] at ht
  split_ifs at ht with h1
  · exact h t pos ht
  · rcases hE : lookupA p.positions s with _ | pos0
    · rw [hE] at ht
      exact h t pos ht
    · rw [hE] at ht
      dsimp only at ht
      split_ifs at ht with h2 h3
      · exact h t pos ht
      · -- position fully emptied: average cost reset to zero
        by_cases hts : t = s
        · subst hts
          rw [lookupA_setA_self] at ht
          obtain rfl : pos = _ := (Option.some.inj ht).symm
          have hnn : 0 ≤ pos0.qty - min pos0.qty q := sub_nonneg.mpr (min_le_left _ _)
          have hz : pos0.qty - min pos0.qty q = 0 := le_antisymm h3 hnn
          exact ⟨hnn, by simp [hz], le_refl 0⟩
        · rw [lookupA_setA_ne _ _ _ _ hts] at ht
          exact h t pos ht
      · -- partial sale: quantity stays positive, average cost kept
        by_cases hts : t = s
        · subst hts
          rw [lookupA_setA_self] at ht
          obtain rfl : pos = _ := (Option.some.inj ht).symm
          have hinv := h t pos0 hE
          have hq0 : pos0.qty ≠ 0 := ne_of_gt (lt_of_not_le h2)
          have havg : pos0.avg_price ≠ 0 := fun hc => hq0 (hinv.2.1.mpr hc)
          have hpos : 0 < pos0.qty - min pos0.qty q := lt_of_not_le h3
          exact ⟨le_of_lt hpos, iff_of_false (ne_of_gt hpos) havg, hinv.2.2⟩
        · rw [lookupA_setA_ne _ _ _ _ hts] at ht
          exact h t pos ht

theorem applyOps_posInvariant (ops : List LedgerOp) (p : Ledger)
    (h : posInvariant p) : posInvariant (applyOps ops p) := by
  induction ops generalizing p with
  | nil => exact h
  | cons op t ih =>
    refine ih (applyOp p op) ?_
    cases op with
    | buy s px amt => exact p.buy_posInvariant s px amt h
    | sell s px q => exact p.sell_posInvariant s px q h

/-- C5: in every ledger reachable from a freshly constructed one (whose
position map is empty) by any finite sequence of buy and sell calls, every
recorded position has a non-negative quantity (no short selling) and its
quantity is zero exactly when its average cost is zero. -/
theorem reachable_positions_invariant (cash fr ff sl : ℚ) (ops : List LedgerOp)
    (s : String) (pos : Position)
    (h : lookupA (applyOps ops (mkLedger cash fr ff sl)).positions s = some pos) :
    0 ≤ pos.qty ∧ (pos.qty = 0 ↔ pos.avg_price = 0) := by
  have base : posInvariant (mkLedger cash fr ff sl) := by
    intro t q hq
    simp [mkLedger, lookupA] at hq
  have hall := applyOps_posInvariant ops _ base s pos h
  exact ⟨hall.1, hall.2.1⟩

/-- Witness for C5 at a concrete reachable ledger: after one buy, the "A"
position is 5 shares at average cost 10, which satisfies the invariant. -/
theorem reachable_positions_invariant_witness :
    lookupA (applyOps [LedgerOp.buy "A" 10 50] (mkLedger 100 0 0 0)).positions "A" =
      some ⟨5, 10⟩ ∧
    (0 ≤ (Position.mk 5 10).qty ∧ ((Position.mk 5 10).qty = 0 ↔ (Position.mk 5 10).avg_price = 0)) :=
  ⟨by with_unfolding_all decide,
   reachable_positions_invariant 100 0 0 0 [LedgerOp.buy "A" 10 50] "A" ⟨5, 10⟩
     (by with_unfolding_all decide)⟩

/-- Witness for C1 at a concrete ledger and call sequence. -/
theorem cash_never_negative_witness :
    0 ≤ (mkLedger 100 0 0 0).cash ∧
    0 ≤ (applyOps [LedgerOp.buy "A" 10 60, LedgerOp.sell "A" 10 2, LedgerOp.buy "B" 3 1000]
          (mkLedger 100 0 0 0)).cash :=
  ⟨by norm_num [mkLedger],
   cash_never_negative (mkLedger 100 0 0 0) (by norm_num [mkLedger])
     [LedgerOp.buy "A" 10 60, LedgerOp.sell "A" 10 2, LedgerOp.buy "B" 3 1000]⟩

/-- Shared execution lemma for a non-degenerate buy: the exact cash debit,
quantity acquired, and quoted-price average-cost blend. -/
theorem Ledger.buy_spec (p : Ledger) (s : String) (px amt : ℚ)
    (hsl : 0 ≤ p.slippage_bps) (hfr : 0 ≤ p.fee_rate)
    (hpx : 0 < px) (hamt : 0 < amt)
    (hspend : p.fee_fixed < min p.cash amt)
    (hq0 : 0 ≤ (posGetD p.positions s).qty) :
    (p.buy s px amt).cash = p.cash - min p.cash amt ∧
    lookupA (p.buy s px amt).positions s =
      some ⟨(posGetD p.positions s).qty +
              (min p.cash amt - p.fee_fixed) /
                (px * (1 + p.slippage_bps / 10000) * (1 + p.fee_rate)),
            ((posGetD p.positions s).avg_price * (posGetD p.positions s).qty +
              px * ((min p.cash amt - p.fee_fixed) /
                (px * (1 + p.slippage_bps / 10000) * (1 + p.fee_rate)))) /
            ((posGetD p.positions s).qty +
              (min p.cash amt - p.fee_fixed) /
                (px * (1 + p.slippage_bps / 10000) * (1 + p.fee_rate)))⟩ := by
  have hden : 0 < px * (1 + p.slippage_bps / 10000) * (1 + p.fee_rate) :=
    mul_pos (mul_pos hpx (by linarith)) (by linarith)
  have hq : 0 < (min p.cash amt - p.fee_fixed) /
      (px * (1 + p.slippage_bps / 10000) * (1 + p.fee_rate)) :=
    div_pos (by linarith) hden
  have hnq : 0 < (posGetD p.positions s).qty +
      (min p.cash amt - p.fee_fixed) /
        (px * (1 + p.slippage_bps / 10000) * (1 + p.fee_rate)) :=
    add_pos_of_nonneg_of_pos hq0 hq
  simp only [Ledger.buy]
  rw [if_neg (by push_neg; exact ⟨hamt, hpx⟩), if_neg (not_le.mpr hden),
    if_neg (not_le.mpr hspend), if_pos hnq]
  exact ⟨rfl, lookupA_setA_self _ _ _⟩

/-- C6: an executed buy (positive quote and cash amount, capped spend above
the fixed fee) debits cash by exactly the capped spend, acquires exactly
`(spend - fee_fixed) / (quote * (1 + slippage_bps/10000) * (1 + fee_rate))`
shares, and blends the average cost with the quoted price (not the
slippage-adjusted execution price). -/
theorem buy_executes_exactly (p : Ledger) (s : String) (px amt : ℚ)
    (hsl : 0 ≤ p.slippage_bps) (hfr : 0 ≤ p.fee_rate)
    (hpx : 0 < px) (hamt : 0 < amt)
    (hspend : p.fee_fixed < min p.cash amt)
    (hq0 : 0 ≤ (posGetD p.positions s).qty) :
    (p.buy s px amt).cash = p.cash - min p.cash amt ∧
    lookupA (p.buy s px amt).positions s =
      some ⟨(posGetD p.positions s).qty +
              (min p.cash amt - p.fee_fixed) /
                (px * (1 + p.slippage_bps / 10000) * (1 + p.fee_rate)),
            ((posGetD p.positions s).avg_price * (posGetD p.positions s).qty +
              px * ((min p.cash amt - p.fee_fixed) /
                (px * (1 + p.slippage_bps / 10000) * (1 + p.fee_rate)))) /
            ((posGetD p.positions s).qty +
              (min p.cash amt - p.fee_fixed) /
                (px * (1 + p.slippage_bps / 10000) * (1 + p.fee_rate)))⟩ :=
  Ledger.buy_spec p s px amt hsl hfr hpx hamt hspend hq0

/-- Witness for C6 on a concrete ledger (cash 100, fixed fee 1): buying 50
of cash at quote 10 acquires 4.9 shares at average cost 10 and debits 50. -/
theorem buy_executes_exactly_witness :
    ((mkLedger 100 0 1 0).buy "A" 10 50).cash = 50 ∧
    lookupA ((mkLedger 100 0 1 0).buy "A" 10 50).positions "A" = some ⟨49/10, 10⟩ := by
  have h := buy_executes_exactly (mkLedger 100 0 1 0) "A" 10 50
    (by with_unfolding_all decide) (by with_unfolding_all decide)
    (by with_unfolding_all decide) (by with_unfolding_all decide)
    (by with_unfolding_all decide) (by with_unfolding_all decide)
  refine ⟨?_, ?_⟩
  · rw [h.1]; with_unfolding_all decide
  · rw [h.2]; with_unfolding_all decide

/-- C7: every degenerate ledger call is a silent no-op leaving the whole
ledger (cash and positions) unchanged: a buy with non-positive cash amount,
non-positive quote, or capped spend not exceeding the fixed fee; and a sell
with non-positive quantity, non-positive quote, or no recorded position of
positive quantity. -/
theorem degenerate_calls_are_noops (p : Ledger) (s : String) (px amt q : ℚ) :
    ((amt ≤ 0 ∨ px ≤ 0 ∨ min p.cash amt ≤ p.fee_fixed) → p.buy s px amt = p) ∧
    ((q ≤ 0 ∨ px ≤ 0 ∨ (∀ pos, lookupA p.positions s = some pos → pos.qty ≤ 0)) →
      p.sell s px q = p) := by
  constructor
  · intro hcase
    rcases hcase with hc | hc | hc
    · rw [Ledger.buy, if_pos (Or.inl hc)]
    · rw [Ledger.buy, if_pos (Or.inr hc)]
    · simp only [Ledger.buy]
      split_ifs with h1 h2 <;> rfl
  · intro hcase
    rcases hcase with hc | hc | hc
    · rw [Ledger.sell, if_pos (Or.inl hc)]
    · rw [Ledger.sell, if_pos (Or.inr hc)]
    · simp only [Ledger.sell]
      split_ifs with h1
      · rfl
      · rcases hE : lookupA p.positions s with _ | pos0
        · rfl
        · dsimp only
          rw [if_pos (hc pos0 hE)]

/-- Witness for C7: a buy of a negative cash amount and a sell of a
negative quantity both leave a concrete ledger exactly unchanged. -/
theorem degenerate_calls_are_noops_witness :
    (mkLedger 100 0 0 0).buy "A" 10 (-5) = mkLedger 100 0 0 0 ∧
    (mkLedger 100 0 0 0).sell "A" 10 (-5) = mkLedger 100 0 0 0 :=
  ⟨(degenerate_calls_are_noops (mkLedger 100 0 0 0) "A" 10 (-5) (-5)).1
     (Or.inl (by norm_num)),
   (degenerate_calls_are_noops (mkLedger 100 0 0 0) "A" 10 (-5) (-5)).2
     (Or.inl (by norm_num))⟩

/-- C8: with zero fees and zero slippage, buying a positive cash amount
(at most the available cash) at a positive quote and then selling exactly
the acquired quantity `amt / px` at the same quote returns cash exactly to
its pre-buy value (the arithmetic here is exact, so no tolerance is
needed). -/
theorem zero_friction_round_trip (p : Ledger) (s : String) (px amt : ℚ)
    (hfr : p.fee_rate = 0) (hff : p.fee_fixed = 0) (hsl : p.slippage_bps = 0)
    (hpx : 0 < px) (hamt : 0 < amt) (hle : amt ≤ p.cash)
    (hq0 : 0 ≤ (posGetD p.positions s).qty) :
    ((p.buy s px amt).sell s px (amt / px)).cash = p.cash := by
  have hmin : min p.cash amt = amt := min_eq_right hle
  have hb := Ledger.buy_spec p s px amt (le_of_eq hsl.symm) (le_of_eq hfr.symm)
    hpx hamt (by rw [hff, hmin]; exact hamt) hq0
  have hq : (min p.cash amt - p.fee_fixed) /
      (px * (1 + p.slippage_bps / 10000) * (1 + p.fee_rate)) = amt / px := by
    rw [hmin, hff, hfr, hsl]
    norm_num
  rw [hq] at hb
  have hqty : 0 < (posGetD p.positions s).qty + amt / px :=
    add_pos_of_nonneg_of_pos hq0 (div_pos hamt hpx)
  simp only [Ledger.sell]
  rw [if_neg (by push_neg; exact ⟨div_pos hamt hpx, hpx⟩), hb.2]
  dsimp only
  rw [if_neg (not_le.mpr hqty)]
  have hsell : min ((posGetD p.positions s).qty + amt / px) (amt / px) = amt / px :=
    min_eq_right (le_add_of_nonneg_left hq0)
  have hpfr : (p.buy s px amt).fee_rate = p.fee_rate := by
    simp only [Ledger.buy]; split_ifs <;> rfl
  have hpff : (p.buy s px amt).fee_fixed = p.fee_fixed := by
    simp only [Ledger.buy]; split_ifs <;> rfl
  have hpsl : (p.buy s px amt).slippage_bps = p.slippage_bps := by
    simp only [Ledger.buy]; split_ifs <;> rfl
  dsimp only
  rw [hsell, hpfr, hpff, hpsl, hfr, hff, hsl, hb.1, hmin]
  have : amt / px * (px * (1 - 0 / 10000)) * (1 - 0) - 0 = amt := by
    field_simp
  rw [this, max_eq_right (le_of_lt hamt)]
  ring

/-- Witness for C8 on a concrete zero-friction ledger: buy 20 of cash at
quote 4, then sell the acquired 5 shares at quote 4; cash returns to 100. -/
theorem zero_friction_round_trip_witness :
    0 < (4:ℚ) ∧
    (((mkLedger 100 0 0 0).buy "A" 4 20).sell "A" 4 (20 / 4)).cash = (mkLedger 100 0 0 0).cash :=
  ⟨by norm_num,
   zero_friction_round_trip (mkLedger 100 0 0 0) "A" 4 20
     (by with_unfolding_all decide) (by with_unfolding_all decide)
     (by with_unfolding_all decide) (by with_unfolding_all decide)
     (by with_unfolding_all decide) (by with_unfolding_all decide)
     (by with_unfolding_all decide)⟩

theorem valuesP_setA (P : ℚ → Prop) (l : List (String × ℚ)) (s : String) (v : ℚ)
    (hl : valuesP P l) (hv : P v) : valuesP P (setA l s v) := by
  intro t w ht
  by_cases hts : t = s
  · subst hts
    rw [lookupA_setA_self] at ht
    exact (Option.some.inj ht) ▸ hv
  · rw [lookupA_setA_ne _ _ _ _ hts] at ht
    exact hl t w ht

theorem valuesP_foldl (P : ℚ → Prop) (f : Pick → ℚ) (hf : ∀ pk, P (f pk)) :
    ∀ (picks : List Pick) (acc : List (String × ℚ)), valuesP P acc →
      valuesP P (picks.foldl (fun ts p => setA ts p.symbol (f p)) acc) := by
  intro picks
  induction picks with
  | nil => intro acc h; exact h
  | cons pk t ih =>
    intro acc h
    exact ih _ (valuesP_setA P acc pk.symbol (f pk) h (hf pk))

theorem lookupA_map_val (l : List (String × ℚ)) (f : ℚ → ℚ) (s : String) :
    lookupA (l.map (fun kv => (kv.1, f kv.2))) s = (lookupA l s).map f := by
  induction l with
  | nil => simp [lookupA]
  | cons kv t ih =>
    by_cases h : kv.1 = s
    · simp [lookupA, h]
    · simp [lookupA, h, ih]

theorem sumVals_scale (l : List (String × ℚ)) (c : ℚ) :
    sumVals (l.map (fun kv => (kv.1, kv.2 * c))) = sumVals l * c := by
  induction l with
  | nil => simp [sumVals]
  | cons kv t ih =>
    simp only [sumVals, List.map_cons, List.map_map, List.sum_cons] at *
    rw [ih]
    ring

theorem lookupA_scale (l : List (String × ℚ)) (c : ℚ) (s : String) :
    lookupA (l.map (fun kv => (kv.1, kv.2 * c))) s =
      (lookupA l s).map (fun w => w * c) := by
  induction l with
  | nil => simp [lookupA]
  | cons kv t ih =>
    by_cases h : kv.1 = s
    · simp [lookupA, h]
    · simp [lookupA, h, ih]

theorem capped_scaled_aux (t0 : List (String × ℚ)) (cap : ℚ)
    (h0 : valuesP (fun w => 0 ≤ w ∧ w ≤ cap) t0) :
    (∀ s w, lookupA (if 1 < sumVals t0 then
        t0.map (fun kv => (kv.1, kv.2 * (1 / sumVals t0))) else t0) s = some w → w ≤ cap) ∧
    sumVals (if 1 < sumVals t0 then
        t0.map (fun kv => (kv.1, kv.2 * (1 / sumVals t0))) else t0) ≤ 1 := by
  split_ifs with hs
  · have hpos : 0 < sumVals t0 := lt_trans one_pos hs
    have hle1 : 1 / sumVals t0 ≤ 1 := by
      rw [div_le_one hpos]; exact le_of_lt hs
    constructor
    · intro s w hw
      rw [lookupA_scale] at hw
      obtain ⟨w0, hw0, hfw⟩ := Option.map_eq_some'.mp hw
      obtain ⟨hw0n, hw0c⟩ := h0 s w0 hw0
      subst hfw
      calc w0 * (1 / sumVals t0) ≤ w0 * 1 :=
             mul_le_mul_of_nonneg_left hle1 hw0n
        _ = w0 := mul_one w0
        _ ≤ cap := hw0c
    · rw [sumVals_scale, mul_one_div, div_self (ne_of_gt hpos)]
  · exact ⟨fun s w hw => (h0 s w hw).2, le_of_not_lt hs⟩

/-- C3 (amended): in the daily runner's rebalance pass, after weight
normalization and capping every per-symbol target weight is at most the
profile's `max_position_pct` cap and the target weights sum to at most 1,
so no symbol is allocated more than `max_position_pct` of equity by the
target computation.  (The Gemini runner's decision conversion has no such
cap; see the counterexample.) -/
theorem computeTargets_capped (picks : List Pick) (cap : ℚ) (hcap : 0 ≤ cap) :
    (∀ s w, lookupA (computeTargets picks cap) s = some w → w ≤ cap) ∧
    sumVals (computeTargets picks cap) ≤ 1 := by
  have key : ∀ nrm : ℚ, valuesP (fun w => 0 ≤ w ∧ w ≤ cap)
      (picks.foldl (fun ts p =>
        setA ts p.symbol (min (if 0 < nrm then max 0 p.weight * nrm else 0) cap)) []) := by
    intro nrm
    refine valuesP_foldl (fun w => 0 ≤ w ∧ w ≤ cap)
      (fun p => min (if 0 < nrm then max 0 p.weight * nrm else 0) cap) ?_ picks [] ?_
    · intro pk
      refine ⟨le_min ?_ hcap, min_le_right _ _⟩
      split_ifs with h
      · exact mul_nonneg (le_max_left 0 _) (le_of_lt h)
      · exact le_refl 0
    · intro s w hw
      simp [lookupA] at hw
  simp only [computeTargets]
  exact capped_scaled_aux _ cap (key _)

/-- Witness for C3 on a concrete picks list and the balanced profile's cap. -/
theorem computeTargets_capped_witness :
    0 ≤ balanced.max_position_pct ∧
    sumVals (computeTargets [⟨"A", 0, 3⟩, ⟨"B", 0, 1⟩] balanced.max_position_pct) ≤ 1 :=
  ⟨by with_unfolding_all decide,
   (computeTargets_capped [⟨"A", 0, 3⟩, ⟨"B", 0, 1⟩] balanced.max_position_pct
     (by with_unfolding_all decide)).2⟩

/-- Counterexample for C3 as stated: the Gemini runner's target computation
(`apply_decisions`) only normalizes weights and never caps them at the
profile's `max_position_pct`, so a single BUY decision receives the whole
target weight 1, far above the balanced cap of 0.05. -/
theorem gemini_targets_exceed_cap :
    lookupA (geminiTargets [⟨"A", "BUY", 1⟩] 20) "A" = some 1 ∧
    balanced.max_position_pct < 1 := by
  constructor
  · with_unfolding_all decide
  · with_unfolding_all decide

-- Every order in a block's trace carries that block's phase tag.

theorem foldl_events_mem {α : Type} (step : (Ledger × List TradeEv) → α → (Ledger × List TradeEv))
    (P : TradeEv → Prop)
    (hstep : ∀ st x e, e ∈ (step st x).2 → e ∈ st.2 ∨ P e) :
    ∀ (l : List α) (st : Ledger × List TradeEv) e, e ∈ (l.foldl step st).2 → e ∈ st.2 ∨ P e := by
  intro l
  induction l with
  | nil => intro st e he; exact Or.inl he
  | cons x t ih =>
    intro st e he
    rcases ih (step st x) e he with h | h
    · exact hstep st x e h
    · exact Or.inr h

theorem runnerSweep_phases (stop : ℚ) (prices : List (String × ℚ)) (held_syms : List String)
    (port : Ledger) : ∀ e ∈ (runnerSweep stop prices held_syms port).2, e.phase = Phase.sweep := by
  intro e he
  have h := foldl_events_mem _ (fun e => e.phase = Phase.sweep) ?_ held_syms (port, []) e he
  · rcases h with h | h
    · simp at h
    · exact h
  · intro st x ev hev
    dsimp only at hev
    rcases hE : lookupA st.1.positions x with _ | pos
    · rw [hE] at hev
      exact Or.inl hev
    · rw [hE] at hev
      dsimp only at hev
      split_ifs at hev with hc
      · rcases List.mem_append.mp hev with h | h
        · exact Or.inl h
        · simp at h
          subst h
          exact Or.inr rfl
      · exact Or.inl hev

theorem runnerExits_phases (targets prices : List (String × ℚ)) (held_syms : List String)
    (port : Ledger) : ∀ e ∈ (runnerExits targets prices held_syms port).2, e.phase = Phase.target := by
  intro e he
  have h := foldl_events_mem _ (fun e => e.phase = Phase.target) ?_ held_syms (port, []) e he
  · rcases h with h | h
    · simp at h
    · exact h
  · intro st x ev hev
    dsimp only at hev
    split_ifs at hev with ht
    · rcases hE : lookupA st.1.positions x with _ | pos
      · rw [hE] at hev
        exact Or.inl hev
      · rw [hE] at hev
        dsimp only at hev
        split_ifs at hev with hc
        · rcases List.mem_append.mp hev with h | h
          · exact Or.inl h
          · simp at h
            subst h
            exact Or.inr rfl
        · exact Or.inl hev
    · exact Or.inl hev

theorem runnerAdjust_phases (prices : List (String × ℚ)) (thresh eq2 : ℚ)
    (targets : List (String × ℚ)) (port : Ledger) :
    ∀ e ∈ (runnerAdjust prices thresh eq2 targets port).2, e.phase = Phase.target := by
  intro e he
  have h := foldl_events_mem _ (fun e => e.phase = Phase.target) ?_ targets (port, []) e he
  · rcases h with h | h
    · simp at h
    · exact h
  · intro st x ev hev
    dsimp only at hev
    split_ifs at hev with h1 h2 h3 h4
    · exact Or.inl hev
    · exact Or.inl hev
    · rcases List.mem_append.mp hev with h | h
      · exact Or.inl h
      · simp at h
        subst h
        exact Or.inr rfl
    · rcases List.mem_append.mp hev with h | h
      · exact Or.inl h
      · simp at h
        subst h
        exact Or.inr rfl
    · exact Or.inl hev

theorem sweep_prefix_precedes (A B : List TradeEv)
    (hA : ∀ e ∈ A, e.phase = Phase.sweep) (hB : ∀ e ∈ B, e.phase = Phase.target) :
    sweepPrecedesTargets (A ++ B) := by
  intro i hi j hj hsw htg
  have hiA : i < A.length := by
    by_contra hc
    push_neg at hc
    have h1 : evGetD (A ++ B) i = evGetD B (i - A.length) :=
      List.getD_append_right _ _ _ _ hc
    have hlen : i - A.length < B.length := by
      rw [List.length_append] at hi
      omega
    have hmem : evGetD B (i - A.length) ∈ B := by
      rw [evGetD, List.getD_eq_getElem _ _ hlen]
      exact List.getElem_mem _
    have hph := hB _ hmem
    rw [h1] at hsw
    rw [hsw] at hph
    exact absurd hph (by decide)
  have hjA : A.length ≤ j := by
    by_contra hc
    push_neg at hc
    have h1 : evGetD (A ++ B) j = evGetD A j := List.getD_append _ _ _ _ hc
    have hmem : evGetD A j ∈ A := by
      rw [evGetD, List.getD_eq_getElem _ _ hc]
      exact List.getElem_mem _
    have hph := hA _ hmem
    rw [h1] at htg
    rw [htg] at hph
    exact absurd hph (by decide)
  omega

/-- C4 (amended): in the daily runner's rebalance pass every order issued
by the stop-loss sweep comes strictly before every target-driven order
(exit sells and adjustment buys/sells), for all inputs.  (The backtest
engine orders the two blocks the other way around within a bar; see the
counterexample.) -/
theorem rebalance_sweep_before_targets (picks : List Pick)
    (cap stop min_trade_cash_pct fr ff sl : ℚ) (prices : List (String × ℚ))
    (cash : ℚ) (positions : List (String × Position)) :
    sweepPrecedesTargets
      (rebalancePass picks cap stop min_trade_cash_pct fr ff sl prices cash positions).2 := by
  simp only [rebalancePass]
  rw [List.append_assoc]
  apply sweep_prefix_precedes
  · exact runnerSweep_phases _ _ _ _
  · intro e he
    rcases List.mem_append.mp he with h | h
    · exact runnerExits_phases _ _ _ _ e h
    · exact runnerAdjust_phases _ _ _ _ _ e h

/-- A sell at a non-positive price is rejected by the ledger's degenerate
guard and leaves it unchanged. -/
theorem Ledger.sell_price_nonpos (p : Ledger) (s : String) (px q : ℚ) (h : px ≤ 0) :
    p.sell s px q = p := by
  rw [Ledger.sell, if_pos (Or.inr h)]

/-- The engine's daily stop-loss block is dead code for any positive
stop-loss fraction: its trigger `px ≤ px * (1 - stop)` forces `px ≤ 0`, and
the ledger rejects sells at non-positive prices, so the block never changes
the ledger at all. -/
theorem engineStopSweep_dead (stop : ℚ) (prices : List (String × ℚ)) (port : Ledger)
    (hstop : 0 < stop) : (engineStopSweep stop prices port).1 = port := by
  have key : ∀ (l : List (String × Position)) (st : Ledger × List TradeEv),
      (l.foldl (fun st kv =>
        if 0 < kv.2.qty then
          if priceGetD prices kv.1 0 ≤ priceGetD prices kv.1 0 * (1 - stop) then
            (st.1.sell kv.1 (priceGetD prices kv.1 0) kv.2.qty,
              st.2 ++ [⟨Phase.sweep, Side.sellOrder, kv.1⟩])
          else st
        else st) st).1 = st.1 := by
    intro l
    induction l with
    | nil => intro st; rfl
    | cons kv t ih =>
      intro st
      rw [List.foldl_cons, ih]
      split_ifs with h1 h2
      · dsimp only
        apply Ledger.sell_price_nonpos
        nlinarith [h2]
      · rfl
      · rfl
  exact key port.positions (port, [])

/-- C2 (failing input): a position bought at average cost 100 whose quote
has dropped 20% to 80 satisfies the claimed stop-loss trigger
`price ≤ average_cost * (1 - stop_loss_pct)` under the balanced profile
(80 ≤ 93), yet the backtest driver's daily stop-loss block leaves the
position entirely intact instead of liquidating it, because it compares the
price against a threshold derived from the price itself. -/
theorem engine_stop_loss_misses_dropped_position :
    ((engineStopSweep balanced.stop_loss_pct [("A", 80)]
      { cash := 0, positions := [("A", ⟨1, 100⟩)],
        fee_rate := 0, fee_fixed := 0, slippage_bps := 0 }).1).positions
      = [("A", ⟨1, 100⟩)] ∧
    (80 : ℚ) ≤ 100 * (1 - balanced.stop_loss_pct) := by
  constructor
  · with_unfolding_all decide
  · with_unfolding_all decide

/-- On the same failing input, the daily runner's sweep (which correctly
compares against the average cost) does liquidate the position fully. -/
theorem runnerSweep_liquidates_dropped_position :
    ((runnerSweep balanced.stop_loss_pct [("A", 80)] ["A"]
      { cash := 0, positions := [("A", ⟨1, 100⟩)],
        fee_rate := 0, fee_fixed := 0, slippage_bps := 0 }).1).positions
      = [("A", ⟨0, 0⟩)] := by
  with_unfolding_all decide

/-- C4 (counterexample): on a rebalance bar of the backtest driver, an
exit sell driven by the target set is issued before the stop-loss block
runs, so the claimed sweep-before-target ordering fails for the engine's
bar step at this concrete input. -/
theorem engine_bar_target_trade_before_sweep :
    ¬ sweepPrecedesTargets (engineBar (1/20) (7/100) [] (1/500) true
        [("A", 10), ("B", 0)]
        { cash := 0, positions := [("A", ⟨1, 100⟩), ("B", ⟨1, 50⟩)],
          fee_rate := 0, fee_fixed := 0, slippage_bps := 0 }).2 := by
  unfold sweepPrecedesTargets
  with_unfolding_all decide

/-- C9 (counterexample): with symbol "B" listed but absent from the OHLCV
map while "A" has a one-bar series, the marking loop indexes the empty
list at -1 and raises (models `IndexError`), so the driver does not run to
completion on every symbols/map input. -/
theorem backtest_marking_raises_on_missing_symbol :
    backtestMarkPrices ["A", "B"] [("A", [⟨1⟩])] = none := by
  with_unfolding_all decide

theorem foldl_min_le_init : ∀ (t : List ℕ) (a : ℕ), t.foldl Nat.min a ≤ a := by
  intro t
  induction t with
  | nil => intro a; exact le_refl a
  | cons b t ih =>
    intro a
    rw [List.foldl_cons]
    exact le_trans (ih (Nat.min a b)) (Nat.min_le_left a b)

theorem foldl_min_le_mem : ∀ (t : List ℕ) (a x : ℕ), x ∈ a :: t → t.foldl Nat.min a ≤ x := by
  intro t
  induction t with
  | nil =>
    intro a x hx
    rw [List.mem_singleton] at hx
    exact hx ▸ le_refl a
  | cons b t ih =>
    intro a x hx
    rw [List.foldl_cons]
    rcases List.mem_cons.mp hx with h | hx2
    · rw [h]
      exact le_trans (foldl_min_le_init t (Nat.min a b)) (Nat.min_le_left a b)
    · rcases List.mem_cons.mp hx2 with h | h
      · rw [h]
        exact le_trans (foldl_min_le_init t (Nat.min a b)) (Nat.min_le_right a b)
      · exact ih (Nat.min a b) x (List.mem_cons_of_mem _ h)

theorem pyGet_isSome {α : Type} (l : List α) (N i : ℕ) (hN : N ≤ l.length) (hi : i < N) :
    (pyGet l (-(N : ℤ) + i)).isSome := by
  unfold pyGet
  have hk : (-(N : ℤ) + i) < 0 := by omega
  rw [if_pos hk, if_pos (by omega)]
  have hlt : ((l.length : ℤ) + (-(N : ℤ) + i)).toNat < l.length := by omega
  rw [List.get?_eq_get hlt]
  rfl

theorem foldlM_option_isSome {α β : Type} (f : β → α → Option β) (l : List α)
    (hf : ∀ b x, x ∈ l → (f b x).isSome) : ∀ b, (List.foldlM f b l).isSome := by
  induction l with
  | nil => intro b; simp [List.foldlM]
  | cons x t ih =>
    intro b
    obtain ⟨b', hb'⟩ := Option.isSome_iff_exists.mp (hf b x (List.mem_cons_self x t))
    simp only [List.foldlM, hb', Option.bind_some, Option.some_bind]
    exact ih (fun b x hx => hf b x (List.mem_cons_of_mem _ hx)) b'

theorem engineStepPrices_isSome (symbols : List String) (m : List (String × List Bar))
    (N i : ℕ) (h : ∀ s ∈ symbols, ∃ series, lookupA m s = some series ∧ N ≤ series.length)
    (hi : i < N) : (engineStepPrices symbols m N i).isSome := by
  unfold engineStepPrices
  apply foldlM_option_isSome
  intro b x hx
  obtain ⟨series, hs, hlen⟩ := h x hx
  obtain ⟨bar, hbar⟩ := Option.isSome_iff_exists.mp (pyGet_isSome series N i hlen hi)
  simp [hs, hbar]

/-- C9 (amended): whenever every listed symbol is present in the OHLCV map
(with a possibly empty series), the driver's per-bar indexing
`series[-N + i]` is in bounds on every bar for every symbol and the price
marking completes without raising; a listed symbol missing from the map
altogether instead raises an IndexError (see the counterexample). -/
theorem backtest_marking_total (symbols : List String) (m : List (String × List Bar))
    (h : ∀ s ∈ symbols, (lookupA m s).isSome) :
    (backtestMarkPrices symbols m).isSome := by
  unfold backtestMarkPrices
  cases hL : symbols.filterMap (fun s => (lookupA m s).map List.length) with
  | nil => rfl
  | cons hd tl =>
    apply foldlM_option_isSome
    intro acc i hi
    have hpres : ∀ s ∈ symbols, ∃ series, lookupA m s = some series ∧
        tl.foldl Nat.min hd ≤ series.length := by
      intro s hs
      obtain ⟨series, hser⟩ := Option.isSome_iff_exists.mp (h s hs)
      refine ⟨series, hser, ?_⟩
      have hmem : series.length ∈ symbols.filterMap (fun s => (lookupA m s).map List.length) :=
        List.mem_filterMap.mpr ⟨s, hs, by rw [hser]; rfl⟩
      rw [hL] at hmem
      exact foldl_min_le_mem tl hd _ hmem
    have hstep := engineStepPrices_isSome symbols m _ i hpres (List.mem_range.mp hi)
    obtain ⟨v, hv⟩ := Option.isSome_iff_exists.mp hstep
    simp [hv]

/-- Witness for C9 on a concrete complete map: both listed symbols are
present and marking completes. -/
theorem backtest_marking_total_witness :
    (∀ s ∈ (["A", "B"] : List String),
      (lookupA [("A", [Bar.mk 1]), ("B", [Bar.mk 2])] s).isSome) ∧
    (backtestMarkPrices ["A", "B"] [("A", [Bar.mk 1]), ("B", [Bar.mk 2])]).isSome :=
  ⟨by with_unfolding_all decide,
   backtest_marking_total ["A", "B"] [("A", [Bar.mk 1]), ("B", [Bar.mk 2])]
     (by with_unfolding_all decide)⟩

/-- C10: a missing snapshot file and an unreadable or unparseable snapshot
both make `load_state` return the default initial state — cash 10000 with
no positions — instead of raising. -/
theorem load_state_defaults_on_failure :
    loadState none = (10000, []) ∧ loadState (some none) = (10000, []) :=
  ⟨rfl, rfl⟩
